import Mathlib

/-!
Verification of the sublattice-intersection mapping utilities of the
`advantage2` demo (`src/utils.py`).

The graph data model follows `networkx.Graph` as used by the code: a list of
node identifiers and a list of undirected edges, each undirected edge stored
once (networkx never lists an edge in both orientations, and it has no
parallel edges).  Edge-membership tests (`tuple in G.edges`) are
orientation-insensitive, which `hasEdge` reproduces.

Candidate sublattice mappings are Python callables; they are embedded as
functions `Nat → Nat`.  The placeholder value `mapping = {}` with which
`get_mapping` initialises its search is an empty `dict`: it is a valid
relabelling argument for `nx.relabel_nodes` (where a dict maps every absent
node to itself) but it is *not callable*, so the surviving-edge recomputation
`tuple(map(mapping, edge))` raises `TypeError` as soon as it is applied to an
edge.  The selected mapping is therefore embedded as `Option (Nat → Nat)`
(`none` standing for the `{}` placeholder), and `get_mapping` returns in
`Except Unit`, with `Except.error ()` marking the raised `TypeError`.
-/

structure Graph where
  nodes : List Nat
  edges : List (Nat × Nat)
deriving DecidableEq, Repr

/-- `(u, v) in G.edges` for an undirected networkx graph: membership is
orientation-insensitive. -/
def hasEdge (G : Graph) (u v : Nat) : Bool :=
  G.edges.contains (u, v) || G.edges.contains (v, u)

/-- The list comprehension
`[edge for edge in intersection_graph.edges if tuple(map(m, edge)) in qpu_graph.edges]`
from `get_mapping`. -/
def coupler_edges (qpu_graph intersection_graph : Graph) (m : Nat → Nat) :
    List (Nat × Nat) :=
  intersection_graph.edges.filter fun e => hasEdge qpu_graph (m e.1) (m e.2)

/-- `len(edges)` for a candidate mapping: the number of reference edges whose
mapped endpoints form an edge of the target graph. -/
def coupler_yield (qpu_graph intersection_graph : Graph) (m : Nat → Nat) : Nat :=
  (coupler_edges qpu_graph intersection_graph m).length

/-- The selection loop of `get_mapping`: starting from the accumulator
`(mapping, coupler_yield)` it replaces the pair whenever a candidate's yield
strictly exceeds the current one (`len(edges) > coupler_yield`). -/
def select_loop (qpu_graph intersection_graph : Graph) :
    List (Nat → Nat) → Option (Nat → Nat) × Nat → Option (Nat → Nat) × Nat
  | [], acc => acc
  | m :: ms, acc =>
    if acc.2 < coupler_yield qpu_graph intersection_graph m then
      select_loop qpu_graph intersection_graph ms
        (some m, coupler_yield qpu_graph intersection_graph m)
    else
      select_loop qpu_graph intersection_graph ms acc

/-- Keep the first occurrence of every node identifier (networkx node sets
contain each node once). -/
def dedupNodes : List Nat → List Nat
  | [] => []
  | n :: ns => n :: (dedupNodes ns).filter fun x => x != n

/-- Two stored edges denote the same undirected edge. -/
def sameEdge (e f : Nat × Nat) : Bool :=
  (e == f) || (e.1 == f.2 && e.2 == f.1)

/-- Keep the first occurrence of every undirected edge (adding an already
present edge to a networkx graph is a no-op). -/
def dedupEdges : List (Nat × Nat) → List (Nat × Nat)
  | [] => []
  | e :: es => e :: (dedupEdges es).filter fun f => !sameEdge e f

/-- `G.edge_subgraph(edges)`: the graph whose edges are exactly the given
edges and whose nodes are the endpoints of those edges. -/
def edge_subgraph (es : List (Nat × Nat)) : Graph :=
  { nodes := dedupNodes (es.flatMap fun e => [e.1, e.2]),
    edges := es }

/-- Application of the selected mapping as `nx.relabel_nodes` interprets it:
a candidate callable is applied, the `{}` placeholder relabels every node to
itself. -/
def apply_mapping : Option (Nat → Nat) → Nat → Nat
  | some m, n => m n
  | none, n => n

/-- `nx.relabel_nodes(G, mapping)`: every node is renamed through the mapping;
nodes (and undirected edges) that collide are merged. -/
def relabel_nodes (G : Graph) (b : Option (Nat → Nat)) : Graph :=
  { nodes := dedupNodes (G.nodes.map (apply_mapping b)),
    edges := dedupEdges (G.edges.map fun e => (apply_mapping b e.1, apply_mapping b e.2)) }

/-- `get_mapping(qpu_graph, intersection_graph, mapper)` from `src/utils.py`.

The candidate list is `mapper(intersection_graph, qpu_graph)`.  The selection
loop keeps the first candidate whose yield strictly exceeds every yield seen
before it.  Afterwards the surviving-edge list is recomputed with the selected
mapping: if no candidate was selected the placeholder `{}` is applied as a
function, which raises `TypeError` on the first edge of the reference graph —
hence the call only returns normally in that case when the reference graph has
no edges (`Except.error ()` models the raised exception). -/
def get_mapping (qpu_graph intersection_graph : Graph)
    (mapper : Graph → Graph → List (Nat → Nat)) :
    Except Unit (Graph × Graph × Option (Nat → Nat)) :=
  let mappings := mapper intersection_graph qpu_graph
  match select_loop qpu_graph intersection_graph mappings (none, 0) with
  | (some m, _) =>
    let trimmed := edge_subgraph (coupler_edges qpu_graph intersection_graph m)
    Except.ok (relabel_nodes trimmed (some m), trimmed, some m)
  | (none, _) =>
    if intersection_graph.edges.isEmpty then
      Except.ok (relabel_nodes (edge_subgraph []) none, edge_subgraph [], none)
    else
      Except.error ()

/-- The maximum, over a candidate sequence, of the surviving-edge count,
taken as `0` for the empty sequence. -/
def max_yield (qpu_graph intersection_graph : Graph)
    (cands : List (Nat → Nat)) : Nat :=
  (cands.map (coupler_yield qpu_graph intersection_graph)).foldr max 0

/-- Result record of `get_chip_intersection_graph`, restricted to the graph
data (the two Plotly figures are rendering only).  `first_trimmed` is the
intermediate value of the `intersection_graph` variable between the two
`get_mapping` calls; `intersection_graph` is the final value returned to the
caller. -/
structure ChipIntersection where
  pegasus_sub_g : Graph
  zephyr_sub_g : Graph
  first_trimmed : Graph
  intersection_graph : Graph
  pegasus_mapping : Option (Nat → Nat)
  zephyr_mapping : Option (Nat → Nat)

/-- The two sequential `get_mapping` invocations of
`get_chip_intersection_graph`: the trimmed reference graph produced by the
first call is the reference graph consumed by the second call.  Hardware
graphs and sublattice enumerators are parameters (they come from the vendor
SDK). -/
def get_chip_intersection_graph
    (pegasus_qpu_g zephyr_qpu_g intersection_graph : Graph)
    (pegasus_sublattice_mappings zephyr_sublattice_mappings :
      Graph → Graph → List (Nat → Nat)) :
    Except Unit ChipIntersection :=
  match get_mapping pegasus_qpu_g intersection_graph pegasus_sublattice_mappings with
  | Except.error e => Except.error e
  | Except.ok (pegasus_sub_g, g1, pegasus_mapping) =>
    match get_mapping zephyr_qpu_g g1 zephyr_sublattice_mappings with
    | Except.error e => Except.error e
    | Except.ok (zephyr_sub_g, g2, zephyr_mapping) =>
      Except.ok ⟨pegasus_sub_g, zephyr_sub_g, g1, g2, pegasus_mapping, zephyr_mapping⟩

/-- The energy flattening of `get_energies`:
`[e for e, o in zip(record.energy, record.num_occurrences) for _ in range(o)]`.
The sampling call itself is external; its record is the pair of lists given
here, and energy values are opaque (`α`). -/
def get_energies {α : Type} (energy : List α) (num_occurrences : List Nat) : List α :=
  (energy.zip num_occurrences).flatMap fun eo => List.replicate eo.2 eo.1

/-- `serialize(obj)`: base64-encode the pickled bytes and decode them as a
UTF-8 string.  `pickle_dumps`, `b64encode` and `utf8_decode` are the external
`dill`/`base64`/`str` primitives, taken as parameters. -/
def serialize {α β γ : Type} (pickle_dumps : α → β) (b64encode : β → β)
    (utf8_decode : β → γ) (obj : α) : γ :=
  utf8_decode (b64encode (pickle_dumps obj))

/-- `deserialize(obj)`: encode the string back to bytes, base64-decode and
unpickle. -/
def deserialize {α β γ : Type} (pickle_loads : β → α) (b64decode : β → β)
    (utf8_encode : γ → β) (obj : γ) : α :=
  pickle_loads (b64decode (utf8_encode obj))

/-- Big-step execution relation for the selection loop of `get_mapping`:
`SelectLoopRel T R ms acc out` holds when one run of the loop over the
candidate list `ms`, starting from the accumulator `acc` (selected mapping,
its yield), ends with accumulator `out`. -/
inductive SelectLoopRel (qpu_graph intersection_graph : Graph) :
    List (Nat → Nat) → Option (Nat → Nat) × Nat → Option (Nat → Nat) × Nat → Prop
  | nil (acc) : SelectLoopRel qpu_graph intersection_graph [] acc acc
  | improve {m : Nat → Nat} {ms acc out} :
      acc.2 < coupler_yield qpu_graph intersection_graph m →
      SelectLoopRel qpu_graph intersection_graph ms
        (some m, coupler_yield qpu_graph intersection_graph m) out →
      SelectLoopRel qpu_graph intersection_graph (m :: ms) acc out
  | keep {m : Nat → Nat} {ms acc out} :
      ¬ acc.2 < coupler_yield qpu_graph intersection_graph m →
      SelectLoopRel qpu_graph intersection_graph ms acc out →
      SelectLoopRel qpu_graph intersection_graph (m :: ms) acc out

/-- Big-step execution relation for one complete `get_mapping` call: the loop
runs over the candidate list, then the function either returns the trimmed and
relabelled graphs for the selected candidate, returns the empty result when
nothing was selected and the reference graph has no edges, or raises
(`TypeError` from applying the `{}` placeholder) otherwise. -/
inductive GetMappingRun (qpu_graph intersection_graph : Graph)
    (mapper : Graph → Graph → List (Nat → Nat)) :
    Except Unit (Graph × Graph × Option (Nat → Nat)) → Prop
  | found {m : Nat → Nat} {y : Nat} :
      SelectLoopRel qpu_graph intersection_graph
        (mapper intersection_graph qpu_graph) (none, 0) (some m, y) →
      GetMappingRun qpu_graph intersection_graph mapper
        (Except.ok
          (relabel_nodes
            (edge_subgraph (coupler_edges qpu_graph intersection_graph m)) (some m),
           edge_subgraph (coupler_edges qpu_graph intersection_graph m), some m))
  | no_selection_empty {y : Nat} :
      SelectLoopRel qpu_graph intersection_graph
        (mapper intersection_graph qpu_graph) (none, 0) (none, y) →
      intersection_graph.edges = [] →
      GetMappingRun qpu_graph intersection_graph mapper
        (Except.ok (relabel_nodes (edge_subgraph []) none, edge_subgraph [], none))
  | no_selection_raise {y : Nat} :
      SelectLoopRel qpu_graph intersection_graph
        (mapper intersection_graph qpu_graph) (none, 0) (none, y) →
      intersection_graph.edges ≠ [] →
      GetMappingRun qpu_graph intersection_graph mapper (Except.error ())

/-! ### Basic lemmas about the deduplicating constructors -/

theorem mem_dedupNodes {a : Nat} : ∀ {l : List Nat}, a ∈ dedupNodes l ↔ a ∈ l := by
  intro l
  induction l with
  | nil => simp [dedupNodes]
  | cons n ns ih =>
    by_cases h : a = n
    · subst h
      simp [dedupNodes]
    · simp only [dedupNodes, List.mem_cons, List.mem_filter, ih, bne_iff_ne, ne_eq]
      constructor
      · rintro (rfl | ⟨hmem, _⟩)
        · exact absurd rfl h
        · exact Or.inr hmem
      · rintro (rfl | hmem)
        · exact absurd rfl h
        · exact Or.inr ⟨hmem, h⟩

theorem dedupNodes_nodup : ∀ (l : List Nat), (dedupNodes l).Nodup := by
  intro l
  induction l with
  | nil => simp [dedupNodes]
  | cons n ns ih =>
    simp only [dedupNodes, List.nodup_cons]
    refine ⟨?_, List.Nodup.filter _ ih⟩
    intro hmem
    have := (List.mem_filter.mp hmem).2
    simp at this

theorem dedupNodes_eq_self {l : List Nat} (h : l.Nodup) : dedupNodes l = l := by
  induction l with
  | nil => rfl
  | cons n ns ih =>
    rcases List.nodup_cons.mp h with ⟨hn, hns⟩
    simp only [dedupNodes, ih hns, List.cons.injEq, true_and]
    apply List.filter_eq_self.mpr
    intro x hx
    simp only [bne_iff_ne, ne_eq]
    intro hxn
    exact hn (hxn ▸ hx)

theorem mem_of_mem_dedupEdges {a : Nat × Nat} :
    ∀ {l : List (Nat × Nat)}, a ∈ dedupEdges l → a ∈ l := by
  intro l
  induction l with
  | nil => simp [dedupEdges]
  | cons e es ih =>
    simp only [dedupEdges, List.mem_cons]
    rintro (rfl | hmem)
    · exact Or.inl rfl
    · exact Or.inr (ih (List.mem_filter.mp hmem).1)

theorem dedupEdges_eq_self {l : List (Nat × Nat)}
    (h : l.Pairwise fun e f => sameEdge e f = false) : dedupEdges l = l := by
  induction l with
  | nil => rfl
  | cons e es ih =>
    rcases List.pairwise_cons.mp h with ⟨he, hes⟩
    simp only [dedupEdges, ih hes, List.cons.injEq, true_and]
    apply List.filter_eq_self.mpr
    intro f hf
    simp [he f hf]

/-! ### Lemmas about the selection loop -/

theorem foldr_max_pull (L : List Nat) (a b : Nat) :
    L.foldr max (max a b) = max a (L.foldr max b) := by
  induction L with
  | nil => rfl
  | cons c L ih => simp [List.foldr, ih, Nat.max_left_comm]

theorem le_foldr_max (L : List Nat) (b : Nat) : b ≤ L.foldr max b := by
  induction L with
  | nil => exact Nat.le_refl b
  | cons c L ih => exact Nat.le_trans ih (Nat.le_max_right c _)

theorem select_loop_keep (T R : Graph) :
    ∀ (ms : List (Nat → Nat)) (acc : Option (Nat → Nat) × Nat),
      (∀ m ∈ ms, coupler_yield T R m ≤ acc.2) → select_loop T R ms acc = acc := by
  intro ms
  induction ms with
  | nil => intro acc _; rfl
  | cons m ms ih =>
    intro acc h
    have hm : ¬ acc.2 < coupler_yield T R m :=
      Nat.not_lt.mpr (h m (List.mem_cons_self m ms))
    simp only [select_loop, if_neg hm]
    exact ih acc fun m' hm' => h m' (List.mem_cons_of_mem m hm')

theorem select_loop_snd (T R : Graph) :
    ∀ (ms : List (Nat → Nat)) (acc : Option (Nat → Nat) × Nat),
      (select_loop T R ms acc).2 = (ms.map (coupler_yield T R)).foldr max acc.2 := by
  intro ms
  induction ms with
  | nil => intro acc; rfl
  | cons m ms ih =>
    intro acc
    by_cases h : acc.2 < coupler_yield T R m
    · simp only [select_loop, if_pos h, List.map_cons, List.foldr_cons]
      rw [ih (some m, coupler_yield T R m)]
      have hle : acc.2 ≤ coupler_yield T R m := Nat.le_of_lt h
      calc (ms.map (coupler_yield T R)).foldr max (coupler_yield T R m)
          = (ms.map (coupler_yield T R)).foldr max (max (coupler_yield T R m) acc.2) := by
            rw [Nat.max_eq_left hle]
        _ = max (coupler_yield T R m) ((ms.map (coupler_yield T R)).foldr max acc.2) :=
            foldr_max_pull _ _ _
    · simp only [select_loop, if_neg h, List.map_cons, List.foldr_cons]
      rw [ih acc]
      have hle : coupler_yield T R m ≤ acc.2 := Nat.not_lt.mp h
      exact (Nat.max_eq_right (Nat.le_trans hle (le_foldr_max _ _))).symm

theorem select_loop_selected_yield (T R : Graph) :
    ∀ (ms : List (Nat → Nat)) (acc : Option (Nat → Nat) × Nat),
      (∀ m, acc.1 = some m → coupler_yield T R m = acc.2) →
      ∀ m, (select_loop T R ms acc).1 = some m →
        coupler_yield T R m = (select_loop T R ms acc).2 := by
  intro ms
  induction ms with
  | nil => intro acc hacc m hm; exact hacc m hm
  | cons m ms ih =>
    intro acc hacc m' hm'
    by_cases h : acc.2 < coupler_yield T R m
    · rw [select_loop, if_pos h] at hm' ⊢
      refine ih (some m, coupler_yield T R m) ?_ m' hm'
      intro m'' hm''
      cases hm''
      rfl
    · rw [select_loop, if_neg h] at hm' ⊢
      exact ih acc hacc m' hm'

theorem select_loop_selected_mem (T R : Graph) :
    ∀ (ms : List (Nat → Nat)) (acc : Option (Nat → Nat) × Nat),
      (select_loop T R ms acc).1 = acc.1 ∨
      ∃ m ∈ ms, (select_loop T R ms acc).1 = some m := by
  intro ms
  induction ms with
  | nil => intro acc; exact Or.inl rfl
  | cons m ms ih =>
    intro acc
    by_cases h : acc.2 < coupler_yield T R m
    · rw [select_loop, if_pos h]
      rcases ih (some m, coupler_yield T R m) with heq | ⟨m', hm', heq⟩
      · exact Or.inr ⟨m, List.mem_cons_self m ms, heq⟩
      · exact Or.inr ⟨m', List.mem_cons_of_mem m hm', heq⟩
    · rw [select_loop, if_neg h]
      rcases ih acc with heq | ⟨m', hm', heq⟩
      · exact Or.inl heq
      · exact Or.inr ⟨m', List.mem_cons_of_mem m hm', heq⟩

theorem select_loop_first_argmax (T R : Graph) :
    ∀ (ms : List (Nat → Nat)) (acc : Option (Nat → Nat) × Nat),
      (∃ m ∈ ms, acc.2 < coupler_yield T R m) →
      ∃ (i : Nat) (hi : i < ms.length),
        select_loop T R ms acc =
          (some (ms.get ⟨i, hi⟩), coupler_yield T R (ms.get ⟨i, hi⟩)) ∧
        acc.2 < coupler_yield T R (ms.get ⟨i, hi⟩) ∧
        (∀ (j : Nat) (hj : j < ms.length),
          coupler_yield T R (ms.get ⟨j, hj⟩) ≤ coupler_yield T R (ms.get ⟨i, hi⟩)) ∧
        (∀ (j : Nat) (hj : j < ms.length), j < i →
          coupler_yield T R (ms.get ⟨j, hj⟩) < coupler_yield T R (ms.get ⟨i, hi⟩)) := by
  intro ms
  induction ms with
  | nil =>
    rintro acc ⟨m, hm, -⟩
    exact absurd hm (List.not_mem_nil m)
  | cons m ms ih =>
    rintro acc ⟨m', hm', hy'⟩
    by_cases h : acc.2 < coupler_yield T R m
    · by_cases hEx : ∃ m'' ∈ ms, coupler_yield T R m < coupler_yield T R m''
      · obtain ⟨i, hi, hEq, hGt, hMax, hFirst⟩ := ih (some m, coupler_yield T R m) hEx
        refine ⟨i + 1, Nat.succ_lt_succ hi, ?_, ?_, ?_, ?_⟩
        · rw [select_loop, if_pos h]
          exact hEq
        · exact Nat.lt_trans h hGt
        · intro j hj
          rcases j with _ | j
          · exact Nat.le_of_lt hGt
          · exact hMax j (Nat.lt_of_succ_lt_succ hj)
        · intro j hj hji
          rcases j with _ | j
          · exact hGt
          · exact hFirst j (Nat.lt_of_succ_lt_succ hj) (Nat.lt_of_succ_lt_succ hji)
      · push_neg at hEx
        have hkeep : select_loop T R ms (some m, coupler_yield T R m) =
            (some m, coupler_yield T R m) :=
          select_loop_keep T R ms (some m, coupler_yield T R m) hEx
        refine ⟨0, Nat.succ_pos _, ?_, h, ?_, ?_⟩
        · rw [select_loop, if_pos h]
          exact hkeep
        · intro j hj
          rcases j with _ | j
          · exact Nat.le_refl _
          · exact hEx _ (List.get_mem ms j (Nat.lt_of_succ_lt_succ hj))
        · intro j hj hji
          exact absurd hji (Nat.not_lt_zero j)
    · have hym : coupler_yield T R m ≤ acc.2 := Nat.not_lt.mp h
      have hEx : ∃ m'' ∈ ms, acc.2 < coupler_yield T R m'' := by
        rcases List.mem_cons.mp hm' with rfl | hmem
        · exact absurd hy' h
        · exact ⟨m', hmem, hy'⟩
      obtain ⟨i, hi, hEq, hGt, hMax, hFirst⟩ := ih acc hEx
      refine ⟨i + 1, Nat.succ_lt_succ hi, ?_, hGt, ?_, ?_⟩
      · rw [select_loop, if_neg h]
        exact hEq
      · intro j hj
        rcases j with _ | j
        · exact Nat.le_of_lt (Nat.lt_of_le_of_lt hym hGt)
        · exact hMax j (Nat.lt_of_succ_lt_succ hj)
      · intro j hj hji
        rcases j with _ | j
        · exact Nat.lt_of_le_of_lt hym hGt
        · exact hFirst j (Nat.lt_of_succ_lt_succ hj) (Nat.lt_of_succ_lt_succ hji)

/-- Inversion principle for a successful `get_mapping` call: either no
candidate was ever selected (possible only for an edgeless reference graph),
or the returned mapping is a candidate, the returned reference graph is the
edge-induced subgraph on its surviving edges, and its yield is the loop's
final yield value. -/
theorem get_mapping_ok_cases (T R : Graph)
    (mapper : Graph → Graph → List (Nat → Nat)) (sub trimmed : Graph)
    (best : Option (Nat → Nat))
    (h : get_mapping T R mapper = Except.ok (sub, trimmed, best)) :
    (best = none ∧ R.edges = [] ∧ trimmed = edge_subgraph [] ∧
      sub = relabel_nodes (edge_subgraph []) none) ∨
    (∃ m ∈ mapper R T, best = some m ∧
      trimmed = edge_subgraph (coupler_edges T R m) ∧
      sub = relabel_nodes trimmed (some m) ∧
      coupler_yield T R m = (select_loop T R (mapper R T) (none, 0)).2) := by
  simp only [get_mapping] at h
  cases hsel : select_loop T R (mapper R T) (none, 0) with
  | mk best' y =>
    cases best' with
    | some m =>
      rw [hsel] at h
      simp only [Except.ok.injEq, Prod.mk.injEq] at h
      obtain ⟨hsub, htrim, hbest⟩ := h
      refine Or.inr ⟨m, ?_, hbest.symm, htrim.symm, ?_, ?_⟩
      · rcases select_loop_selected_mem T R (mapper R T) (none, 0) with heq | ⟨m', hm', heq⟩
        · rw [hsel] at heq
          exact absurd heq (by simp)
        · rw [hsel] at heq
          cases heq
          exact hm'
      · rw [← htrim, ← hsub]
      · have := select_loop_selected_yield T R (mapper R T) (none, 0)
          (by intro m' hm'; exact absurd hm' (by simp)) m (by rw [hsel])
        rw [hsel] at this
        exact this
    | none =>
      rw [hsel] at h
      cases hE : R.edges.isEmpty
      · rw [hE] at h
        simp at h
      · rw [hE] at h
        simp only [if_true, Except.ok.injEq, Prod.mk.injEq] at h
        obtain ⟨hsub, htrim, hbest⟩ := h
        exact Or.inl ⟨hbest.symm, List.isEmpty_iff.mp hE, htrim.symm, hsub.symm⟩

/-- Node membership in an edge-induced subgraph: exactly the endpoints of the
given edges. -/
theorem mem_edge_subgraph_nodes (es : List (Nat × Nat)) (n : Nat) :
    n ∈ (edge_subgraph es).nodes ↔ ∃ e ∈ es, n = e.1 ∨ n = e.2 := by
  simp only [edge_subgraph, mem_dedupNodes, List.mem_flatMap, List.mem_cons,
    List.mem_singleton, List.not_mem_nil, or_false]

theorem max_yield_eq_zero (T R : Graph) :
    ∀ (cands : List (Nat → Nat)), (∀ m ∈ cands, coupler_yield T R m = 0) →
      max_yield T R cands = 0 := by
  intro cands
  induction cands with
  | nil => intro _; rfl
  | cons m ms ih =>
    intro h
    simp only [max_yield, List.map_cons, List.foldr_cons]
    rw [h m (List.mem_cons_self m ms)]
    have h2 := ih fun m' hm' => h m' (List.mem_cons_of_mem m hm')
    simp only [max_yield] at h2
    rw [h2]
    simp

/-- C1 (counterexample): with an empty candidate sequence and a reference
graph that still has an edge, `get_mapping` does not return at all (the `{}`
placeholder is applied as a function and raises `TypeError` — the run ends in
`Except.error`, never in `Except.ok`), so there is no returned
`trimmedReference` whose edge count could equal the claimed maximum 0. -/
theorem get_mapping_empty_candidates_no_output :
    get_mapping ⟨[0, 1], [(0, 1)]⟩ ⟨[0, 1], [(0, 1)]⟩ (fun _ _ => []) =
      Except.error () := rfl

/-- C1 (amended): whenever `get_mapping` returns — that is, some candidate
attains a positive yield or the reference graph has no edges — the edge count
of the returned trimmed reference graph equals the maximum, over the candidate
sequence, of the surviving-edge count of each candidate, the maximum being 0
for the empty sequence. -/
theorem get_mapping_trimmed_edges_length_eq_max_yield
    (T R : Graph) (mapper : Graph → Graph → List (Nat → Nat))
    (sub trimmed : Graph) (best : Option (Nat → Nat))
    (h : get_mapping T R mapper = Except.ok (sub, trimmed, best)) :
    trimmed.edges.length = max_yield T R (mapper R T) := by
  rcases get_mapping_ok_cases T R mapper sub trimmed best h with
    ⟨-, hR, htrim, -⟩ | ⟨m, -, -, htrim, -, hy⟩
  · subst htrim
    have hzero : ∀ m ∈ mapper R T, coupler_yield T R m = 0 := by
      intro m _
      simp [coupler_yield, coupler_edges, hR]
    rw [max_yield_eq_zero T R (mapper R T) hzero]
    rfl
  · subst htrim
    show coupler_yield T R m = max_yield T R (mapper R T)
    rw [hy, select_loop_snd]
    rfl

/-- Witness for C1's amended theorem at a concrete successful call. -/
theorem get_mapping_trimmed_edges_length_eq_max_yield_witness :
    (Graph.mk [0, 1] [(0, 1)]).edges.length =
      max_yield ⟨[5, 6], [(5, 6)]⟩ ⟨[0, 1], [(0, 1)]⟩ [fun n => n + 5] :=
  get_mapping_trimmed_edges_length_eq_max_yield ⟨[5, 6], [(5, 6)]⟩
    ⟨[0, 1], [(0, 1)]⟩ (fun _ _ => [fun n => n + 5]) ⟨[5, 6], [(5, 6)]⟩
    ⟨[0, 1], [(0, 1)]⟩ (some fun n => n + 5) rfl

/-- C2: the trimmed reference graph returned by a successful `get_mapping`
call is exactly the edge-induced subgraph of the input reference graph on the
edges whose image under the selected mapping is an edge of the target graph:
its edges are exactly those surviving edges, and its nodes are exactly their
endpoints (nodes with no surviving incident edge are dropped). -/
theorem get_mapping_trimmed_is_edge_induced_subgraph
    (T R : Graph) (mapper : Graph → Graph → List (Nat → Nat))
    (sub trimmed : Graph) (best : Option (Nat → Nat))
    (h : get_mapping T R mapper = Except.ok (sub, trimmed, best)) :
    (∀ e, e ∈ trimmed.edges ↔
      e ∈ R.edges ∧ ∃ m, best = some m ∧ hasEdge T (m e.1) (m e.2) = true) ∧
    (∀ n, n ∈ trimmed.nodes ↔ ∃ e ∈ trimmed.edges, n = e.1 ∨ n = e.2) := by
  rcases get_mapping_ok_cases T R mapper sub trimmed best h with
    ⟨hbest, hR, htrim, -⟩ | ⟨m, -, hbest, htrim, -, -⟩
  · subst htrim hbest
    constructor
    · intro e
      simp [edge_subgraph, hR]
    · intro n
      exact mem_edge_subgraph_nodes [] n
  · subst htrim hbest
    constructor
    · intro e
      show e ∈ coupler_edges T R m ↔ _
      constructor
      · intro he
        rcases List.mem_filter.mp he with ⟨heR, hp⟩
        exact ⟨heR, m, rfl, hp⟩
      · rintro ⟨heR, m', hm', hp⟩
        cases hm'
        exact List.mem_filter.mpr ⟨heR, hp⟩
    · intro n
      exact mem_edge_subgraph_nodes _ n

/-- Witness for C2 at a concrete call in which one reference edge dies and a
node is dropped. -/
theorem get_mapping_trimmed_is_edge_induced_subgraph_witness :
    (∀ e, e ∈ (Graph.mk [0, 1] [(0, 1)]).edges ↔
      e ∈ (Graph.mk [0, 1, 2] [(0, 1), (1, 2)]).edges ∧
      ∃ m, (some fun n => n + 5 : Option (Nat → Nat)) = some m ∧
        hasEdge ⟨[5, 6, 7], [(5, 6)]⟩ (m e.1) (m e.2) = true) ∧
    (∀ n, n ∈ (Graph.mk [0, 1] [(0, 1)]).nodes ↔
      ∃ e ∈ (Graph.mk [0, 1] [(0, 1)]).edges, n = e.1 ∨ n = e.2) :=
  get_mapping_trimmed_is_edge_induced_subgraph ⟨[5, 6, 7], [(5, 6)]⟩
    ⟨[0, 1, 2], [(0, 1), (1, 2)]⟩ (fun _ _ => [fun n => n + 5])
    ⟨[5, 6], [(5, 6)]⟩ ⟨[0, 1], [(0, 1)]⟩ (some fun n => n + 5) rfl

/-- C4: the claimed graceful degenerate behaviour does not hold.  With an
empty candidate sequence (or only zero-yield candidates) and a reference graph
that has at least one edge, `get_mapping` raises (`TypeError`: the empty-dict
placeholder is applied as a function) instead of returning a zero-edge trimmed
graph. -/
theorem get_mapping_empty_candidates_error :
    get_mapping ⟨[0, 1], [(0, 1)]⟩ ⟨[0, 1, 2], [(0, 1), (1, 2)]⟩
      (fun _ _ => []) = Except.error () := rfl

/-- C3: when some candidate has positive yield, the mapping selected by
`get_mapping` is a candidate with positive yield that attains the maximum
yield and is the earliest such candidate: the strict `>` comparison means
every earlier candidate has strictly smaller yield, so ties keep the earlier
candidate, and a zero-yield candidate is never selected. -/
theorem get_mapping_selects_first_max_yield_candidate
    (T R : Graph) (mapper : Graph → Graph → List (Nat → Nat))
    (hpos : ∃ m ∈ mapper R T, 0 < coupler_yield T R m) :
    ∃ (i : Nat) (hi : i < (mapper R T).length) (sub trimmed : Graph),
      get_mapping T R mapper =
        Except.ok (sub, trimmed, some ((mapper R T).get ⟨i, hi⟩)) ∧
      0 < coupler_yield T R ((mapper R T).get ⟨i, hi⟩) ∧
      (∀ (j : Nat) (hj : j < (mapper R T).length),
        coupler_yield T R ((mapper R T).get ⟨j, hj⟩) ≤
          coupler_yield T R ((mapper R T).get ⟨i, hi⟩)) ∧
      (∀ (j : Nat) (hj : j < (mapper R T).length), j < i →
        coupler_yield T R ((mapper R T).get ⟨j, hj⟩) <
          coupler_yield T R ((mapper R T).get ⟨i, hi⟩)) := by
  obtain ⟨i, hi, hEq, hGt, hMax, hFirst⟩ :=
    select_loop_first_argmax T R (mapper R T) (none, 0) hpos
  have hgm : get_mapping T R mapper =
      Except.ok
        (relabel_nodes (edge_subgraph (coupler_edges T R ((mapper R T).get ⟨i, hi⟩)))
          (some ((mapper R T).get ⟨i, hi⟩)),
         edge_subgraph (coupler_edges T R ((mapper R T).get ⟨i, hi⟩)),
         some ((mapper R T).get ⟨i, hi⟩)) := by
    simp only [get_mapping]
    rw [hEq]
  exact ⟨i, hi, _, _, hgm, hGt, hMax, hFirst⟩

/-- Witness for C3 at a concrete call with a yield tie between two
candidates. -/
theorem get_mapping_selects_first_max_yield_candidate_witness :
    (∃ m ∈ [fun n => n, fun n => 1 - n], 0 < coupler_yield ⟨[0, 1], [(0, 1)]⟩
      ⟨[0, 1], [(0, 1)]⟩ m) ∧
    ∃ (i : Nat) (hi : i < ([fun n => n, fun n => 1 - n] : List (Nat → Nat)).length)
      (sub trimmed : Graph),
      get_mapping ⟨[0, 1], [(0, 1)]⟩ ⟨[0, 1], [(0, 1)]⟩
          (fun _ _ => [fun n => n, fun n => 1 - n]) =
        Except.ok (sub, trimmed,
          some (([fun n => n, fun n => 1 - n] : List (Nat → Nat)).get ⟨i, hi⟩)) ∧
      0 < coupler_yield ⟨[0, 1], [(0, 1)]⟩ ⟨[0, 1], [(0, 1)]⟩
        (([fun n => n, fun n => 1 - n] : List (Nat → Nat)).get ⟨i, hi⟩) ∧
      (∀ (j : Nat) (hj : j < ([fun n => n, fun n => 1 - n] : List (Nat → Nat)).length),
        coupler_yield ⟨[0, 1], [(0, 1)]⟩ ⟨[0, 1], [(0, 1)]⟩
            (([fun n => n, fun n => 1 - n] : List (Nat → Nat)).get ⟨j, hj⟩) ≤
          coupler_yield ⟨[0, 1], [(0, 1)]⟩ ⟨[0, 1], [(0, 1)]⟩
            (([fun n => n, fun n => 1 - n] : List (Nat → Nat)).get ⟨i, hi⟩)) ∧
      (∀ (j : Nat) (hj : j < ([fun n => n, fun n => 1 - n] : List (Nat → Nat)).length),
        j < i →
        coupler_yield ⟨[0, 1], [(0, 1)]⟩ ⟨[0, 1], [(0, 1)]⟩
            (([fun n => n, fun n => 1 - n] : List (Nat → Nat)).get ⟨j, hj⟩) <
          coupler_yield ⟨[0, 1], [(0, 1)]⟩ ⟨[0, 1], [(0, 1)]⟩
            (([fun n => n, fun n => 1 - n] : List (Nat → Nat)).get ⟨i, hi⟩)) :=
  ⟨⟨fun n => n, List.mem_cons_self _ _, by decide⟩,
    get_mapping_selects_first_max_yield_candidate ⟨[0, 1], [(0, 1)]⟩
      ⟨[0, 1], [(0, 1)]⟩ (fun _ _ => [fun n => n, fun n => 1 - n])
      ⟨fun n => n, List.mem_cons_self _ _, by decide⟩⟩

/-- C8: rendered over the pure state-passing embedding, a successful
`get_mapping` call changes nothing but the reference graph, which undergoes
its single trim: the returned trimmed graph is a subgraph of the input
reference graph (edges and nodes), and the returned mapping is an unmodified
input value — either the initial empty placeholder or one of the candidate
mappings themselves. -/
theorem get_mapping_frame
    (T R : Graph) (mapper : Graph → Graph → List (Nat → Nat))
    (sub trimmed : Graph) (best : Option (Nat → Nat))
    (hwf : ∀ e ∈ R.edges, e.1 ∈ R.nodes ∧ e.2 ∈ R.nodes)
    (h : get_mapping T R mapper = Except.ok (sub, trimmed, best)) :
    (∀ e ∈ trimmed.edges, e ∈ R.edges) ∧
    (∀ n ∈ trimmed.nodes, n ∈ R.nodes) ∧
    (best = none ∨ ∃ m ∈ mapper R T, best = some m) := by
  rcases get_mapping_ok_cases T R mapper sub trimmed best h with
    ⟨hbest, -, htrim, -⟩ | ⟨m, hmem, hbest, htrim, -, -⟩
  · subst htrim
    exact ⟨by simp [edge_subgraph], by simp [edge_subgraph, dedupNodes],
      Or.inl hbest⟩
  · subst htrim hbest
    refine ⟨?_, ?_, Or.inr ⟨m, hmem, rfl⟩⟩
    · intro e he
      exact (List.mem_filter.mp he).1
    · intro n hn
      obtain ⟨e, he, hor⟩ := (mem_edge_subgraph_nodes _ n).mp hn
      have heR : e ∈ R.edges := (List.mem_filter.mp he).1
      rcases hor with rfl | rfl
      · exact (hwf e heR).1
      · exact (hwf e heR).2

/-- Witness for C8 at a concrete successful call. -/
theorem get_mapping_frame_witness :
    (∀ e ∈ (Graph.mk [0, 1] [(0, 1)]).edges,
      e ∈ (Graph.mk [0, 1, 2] [(0, 1), (1, 2)]).edges) ∧
    (∀ n ∈ (Graph.mk [0, 1] [(0, 1)]).nodes,
      n ∈ (Graph.mk [0, 1, 2] [(0, 1), (1, 2)]).nodes) ∧
    ((some fun n => n + 5 : Option (Nat → Nat)) = none ∨
      ∃ m ∈ [fun n => n + 5], (some fun n => n + 5 : Option (Nat → Nat)) = some m) :=
  get_mapping_frame ⟨[5, 6], [(5, 6)]⟩ ⟨[0, 1, 2], [(0, 1), (1, 2)]⟩
    (fun _ _ => [fun n => n + 5]) ⟨[5, 6], [(5, 6)]⟩ ⟨[0, 1], [(0, 1)]⟩
    (some fun n => n + 5) (by decide) rfl

theorem sameEdge_true_iff (e f : Nat × Nat) :
    sameEdge e f = true ↔ (e.1 = f.1 ∧ e.2 = f.2) ∨ (e.1 = f.2 ∧ e.2 = f.1) := by
  simp [sameEdge, Prod.ext_iff]

/-- Relabelling a graph through a mapping that is injective on its nodes
merges nothing: node and edge counts are preserved and the node set is the
image of the original node set. -/
theorem relabel_counts (G : Graph) (b : Option (Nat → Nat))
    (hn : G.nodes.Nodup)
    (he : G.edges.Pairwise fun e f => sameEdge e f = false)
    (hend : ∀ e ∈ G.edges, e.1 ∈ G.nodes ∧ e.2 ∈ G.nodes)
    (hinj : ∀ a ∈ G.nodes, ∀ c ∈ G.nodes,
      apply_mapping b a = apply_mapping b c → a = c) :
    (relabel_nodes G b).nodes.length = G.nodes.length ∧
    (relabel_nodes G b).edges.length = G.edges.length ∧
    (∀ x, x ∈ (relabel_nodes G b).nodes ↔ ∃ n ∈ G.nodes, x = apply_mapping b n) := by
  have hmapnodup : (G.nodes.map (apply_mapping b)).Nodup :=
    List.Nodup.map_on hinj hn
  have hpair2 : G.edges.Pairwise fun e f =>
      sameEdge (apply_mapping b e.1, apply_mapping b e.2)
        (apply_mapping b f.1, apply_mapping b f.2) = false := by
    refine he.imp_of_mem ?_
    intro a c ha hc hac
    cases hse : sameEdge (apply_mapping b a.1, apply_mapping b a.2)
        (apply_mapping b c.1, apply_mapping b c.2)
    · rfl
    · exfalso
      rcases (sameEdge_true_iff _ _).mp hse with ⟨h1, h2⟩ | ⟨h1, h2⟩
      · have e1 := hinj a.1 (hend a ha).1 c.1 (hend c hc).1 h1
        have e2 := hinj a.2 (hend a ha).2 c.2 (hend c hc).2 h2
        rw [(sameEdge_true_iff a c).mpr (Or.inl ⟨e1, e2⟩)] at hac
        exact Bool.noConfusion hac
      · have e1 := hinj a.1 (hend a ha).1 c.2 (hend c hc).2 h1
        have e2 := hinj a.2 (hend a ha).2 c.1 (hend c hc).1 h2
        rw [(sameEdge_true_iff a c).mpr (Or.inr ⟨e1, e2⟩)] at hac
        exact Bool.noConfusion hac
  refine ⟨?_, ?_, ?_⟩
  · show (dedupNodes (G.nodes.map (apply_mapping b))).length = G.nodes.length
    rw [dedupNodes_eq_self hmapnodup, List.length_map]
  · show (dedupEdges (G.edges.map fun e =>
      (apply_mapping b e.1, apply_mapping b e.2))).length = G.edges.length
    rw [dedupEdges_eq_self (List.pairwise_map.mpr hpair2), List.length_map]
  · intro x
    show x ∈ dedupNodes (G.nodes.map (apply_mapping b)) ↔ _
    rw [mem_dedupNodes, List.mem_map]
    constructor
    · rintro ⟨n, hn', rfl⟩
      exact ⟨n, hn', rfl⟩
    · rintro ⟨n, hn', rfl⟩
      exact ⟨n, hn', rfl⟩

/-- C6: if the selected mapping is injective on the nodes of the trimmed
reference graph, the returned sub-graph has exactly the same node count and
edge count as the trimmed reference graph, and its node set is the image of
the trimmed node set under the mapping (every node renamed, none merged).
The reference graph is assumed well-formed as every networkx graph is: no
two stored edges denote the same undirected edge. -/
theorem get_mapping_injective_relabel_counts
    (T R : Graph) (mapper : Graph → Graph → List (Nat → Nat))
    (sub trimmed : Graph) (best : Option (Nat → Nat))
    (hwf : R.edges.Pairwise fun e f => sameEdge e f = false)
    (h : get_mapping T R mapper = Except.ok (sub, trimmed, best))
    (hinj : ∀ a ∈ trimmed.nodes, ∀ c ∈ trimmed.nodes,
      apply_mapping best a = apply_mapping best c → a = c) :
    sub.nodes.length = trimmed.nodes.length ∧
    sub.edges.length = trimmed.edges.length ∧
    (∀ x, x ∈ sub.nodes ↔ ∃ n ∈ trimmed.nodes, x = apply_mapping best n) := by
  rcases get_mapping_ok_cases T R mapper sub trimmed best h with
    ⟨hbest, -, htrim, hsub⟩ | ⟨m, -, hbest, htrim, hsub, -⟩
  · subst hbest htrim
    subst hsub
    exact relabel_counts (edge_subgraph []) none (dedupNodes_nodup _)
      List.Pairwise.nil (by intro e he; exact absurd he (List.not_mem_nil e)) hinj
  · subst hbest htrim
    subst hsub
    refine relabel_counts (edge_subgraph (coupler_edges T R m)) (some m)
      (dedupNodes_nodup _) (List.Pairwise.filter _ hwf) ?_ hinj
    intro e he
    exact ⟨(mem_edge_subgraph_nodes _ e.1).mpr ⟨e, he, Or.inl rfl⟩,
      (mem_edge_subgraph_nodes _ e.2).mpr ⟨e, he, Or.inr rfl⟩⟩

/-- Witness for C6 at a concrete call with an injective mapping. -/
theorem get_mapping_injective_relabel_counts_witness :
    (Graph.mk [10, 11, 12] [(10, 11), (11, 12)]).nodes.length =
      (Graph.mk [0, 1, 2] [(0, 1), (1, 2)]).nodes.length ∧
    (Graph.mk [10, 11, 12] [(10, 11), (11, 12)]).edges.length =
      (Graph.mk [0, 1, 2] [(0, 1), (1, 2)]).edges.length ∧
    (∀ x, x ∈ (Graph.mk [10, 11, 12] [(10, 11), (11, 12)]).nodes ↔
      ∃ n ∈ (Graph.mk [0, 1, 2] [(0, 1), (1, 2)]).nodes,
        x = apply_mapping (some fun n => n + 10) n) :=
  get_mapping_injective_relabel_counts ⟨[10, 11, 12], [(10, 11), (11, 12)]⟩
    ⟨[0, 1, 2], [(0, 1), (1, 2)]⟩ (fun _ _ => [fun n => n + 10])
    ⟨[10, 11, 12], [(10, 11), (11, 12)]⟩ ⟨[0, 1, 2], [(0, 1), (1, 2)]⟩
    (some fun n => n + 10) (by decide) rfl (by decide)

/-- A successful `get_mapping` call always returns an edge-induced subgraph as
its trimmed reference graph, whose edges carry the stated survival facts. -/
theorem get_mapping_ok_edge_facts (T R : Graph)
    (mapper : Graph → Graph → List (Nat → Nat)) (sub g : Graph)
    (best : Option (Nat → Nat))
    (h : get_mapping T R mapper = Except.ok (sub, g, best)) :
    ∃ es, g = edge_subgraph es ∧
      ∀ e ∈ es, e ∈ R.edges ∧
        ∃ m, best = some m ∧ hasEdge T (m e.1) (m e.2) = true := by
  rcases get_mapping_ok_cases T R mapper sub g best h with
    ⟨-, -, hg, -⟩ | ⟨m, -, hbest, hg, -, -⟩
  · exact ⟨[], hg, by intro e he; exact absurd he (List.not_mem_nil e)⟩
  · refine ⟨coupler_edges T R m, hg, ?_⟩
    intro e he
    rcases List.mem_filter.mp he with ⟨heR, hp⟩
    exact ⟨heR, m, hbest, hp⟩

/-- C5: in the two-system composition, the trimmed reference output of the
first `get_mapping` invocation (`first_trimmed`) is the reference input of the
second invocation, whose output is the final reference graph; that final graph
is a subgraph (edges and nodes) of the first invocation's trimmed output, and
each of its edges is an original reference edge that survives in both hardware
graphs under the respective selected mappings. -/
theorem get_chip_intersection_graph_second_trim_subgraph
    (Tp Tz R0 : Graph)
    (mapperP mapperZ : Graph → Graph → List (Nat → Nat))
    (res : ChipIntersection)
    (h : get_chip_intersection_graph Tp Tz R0 mapperP mapperZ = Except.ok res) :
    get_mapping Tz res.first_trimmed mapperZ =
      Except.ok (res.zephyr_sub_g, res.intersection_graph, res.zephyr_mapping) ∧
    (∀ e ∈ res.intersection_graph.edges, e ∈ res.first_trimmed.edges) ∧
    (∀ n ∈ res.intersection_graph.nodes, n ∈ res.first_trimmed.nodes) ∧
    (∀ e ∈ res.intersection_graph.edges,
      e ∈ R0.edges ∧
      (∃ m, res.pegasus_mapping = some m ∧ hasEdge Tp (m e.1) (m e.2) = true) ∧
      (∃ m, res.zephyr_mapping = some m ∧ hasEdge Tz (m e.1) (m e.2) = true)) := by
  simp only [get_chip_intersection_graph] at h
  split at h
  next e heq1 => exact Except.noConfusion h
  next ps g1 pm heq1 =>
    split at h
    next e heq2 => exact Except.noConfusion h
    next zs g2 zm heq2 =>
      simp only [Except.ok.injEq] at h
      subst h
      obtain ⟨es1, hg1, hprop1⟩ := get_mapping_ok_edge_facts Tp R0 mapperP ps g1 pm heq1
      obtain ⟨es2, hg2, hprop2⟩ := get_mapping_ok_edge_facts Tz g1 mapperZ zs g2 zm heq2
      refine ⟨heq2, ?_, ?_, ?_⟩
      · intro e he
        rw [hg2] at he
        rw [hg1]
        have := (hprop2 e he).1
        rw [hg1] at this
        exact this
      · intro n hn
        rw [hg2] at hn
        obtain ⟨e, he, hor⟩ := (mem_edge_subgraph_nodes es2 n).mp hn
        have heg1 : e ∈ g1.edges := (hprop2 e he).1
        rw [hg1] at heg1 ⊢
        exact (mem_edge_subgraph_nodes es1 n).mpr ⟨e, heg1, hor⟩
      · intro e he
        rw [hg2] at he
        obtain ⟨heg1, hz⟩ := hprop2 e he
        rw [hg1] at heg1
        obtain ⟨heR0, hp⟩ := hprop1 e heg1
        exact ⟨heR0, hp, hz⟩

/-- Witness for C5 at a concrete composition in which the second system kills
one more edge than the first. -/
theorem get_chip_intersection_graph_second_trim_subgraph_witness :
    get_mapping ⟨[0, 1], [(0, 1)]⟩ (Graph.mk [0, 1, 2] [(0, 1), (1, 2)])
        (fun _ _ => [fun n => n]) =
      Except.ok (⟨[0, 1], [(0, 1)]⟩, ⟨[0, 1], [(0, 1)]⟩,
        some fun n => n) ∧
    (∀ e ∈ (Graph.mk [0, 1] [(0, 1)]).edges,
      e ∈ (Graph.mk [0, 1, 2] [(0, 1), (1, 2)]).edges) ∧
    (∀ n ∈ (Graph.mk [0, 1] [(0, 1)]).nodes,
      n ∈ (Graph.mk [0, 1, 2] [(0, 1), (1, 2)]).nodes) ∧
    (∀ e ∈ (Graph.mk [0, 1] [(0, 1)]).edges,
      e ∈ (Graph.mk [0, 1, 2] [(0, 1), (1, 2)]).edges ∧
      (∃ m, (some fun n => n : Option (Nat → Nat)) = some m ∧
        hasEdge ⟨[0, 1, 2], [(0, 1), (1, 2)]⟩ (m e.1) (m e.2) = true) ∧
      (∃ m, (some fun n => n : Option (Nat → Nat)) = some m ∧
        hasEdge ⟨[0, 1], [(0, 1)]⟩ (m e.1) (m e.2) = true)) :=
  get_chip_intersection_graph_second_trim_subgraph
    ⟨[0, 1, 2], [(0, 1), (1, 2)]⟩ ⟨[0, 1], [(0, 1)]⟩
    ⟨[0, 1, 2], [(0, 1), (1, 2)]⟩ (fun _ _ => [fun n => n])
    (fun _ _ => [fun n => n])
    ⟨⟨[0, 1, 2], [(0, 1), (1, 2)]⟩, ⟨[0, 1], [(0, 1)]⟩,
     ⟨[0, 1, 2], [(0, 1), (1, 2)]⟩, ⟨[0, 1], [(0, 1)]⟩,
     some fun n => n, some fun n => n⟩ rfl

theorem selectLoopRel_eq (T R : Graph) {ms : List (Nat → Nat)}
    {acc out : Option (Nat → Nat) × Nat}
    (h : SelectLoopRel T R ms acc out) : out = select_loop T R ms acc := by
  induction h with
  | nil acc => rfl
  | improve hlt _ ih =>
    rw [select_loop, if_pos hlt]
    exact ih
  | keep hlt _ ih =>
    rw [select_loop, if_neg hlt]
    exact ih

theorem getMappingRun_eq (T R : Graph)
    (mapper : Graph → Graph → List (Nat → Nat))
    {o : Except Unit (Graph × Graph × Option (Nat → Nat))}
    (h : GetMappingRun T R mapper o) : o = get_mapping T R mapper := by
  cases h with
  | found hrel =>
    simp only [get_mapping, ← selectLoopRel_eq T R hrel]
  | no_selection_empty hrel hE =>
    simp only [get_mapping, ← selectLoopRel_eq T R hrel, hE]
    rfl
  | no_selection_raise hrel hne =>
    have hfalse : R.edges.isEmpty = false := by
      cases hR : R.edges
      · exact absurd hR hne
      · rfl
    simp only [get_mapping, ← selectLoopRel_eq T R hrel, hfalse]
    rfl

/-- C7: `get_mapping` is deterministic.  Any two runs of the call (in the
big-step execution relation `GetMappingRun`) on the same target graph, the
same reference graph and the same candidate sequence produce identical
outputs — the same sub-graph, the same trimmed reference graph and the same
selected mapping — and that common output is the one computed by
`get_mapping`. -/
theorem get_mapping_deterministic (T R : Graph)
    (mapper : Graph → Graph → List (Nat → Nat))
    (o₁ o₂ : Except Unit (Graph × Graph × Option (Nat → Nat)))
    (h₁ : GetMappingRun T R mapper o₁) (h₂ : GetMappingRun T R mapper o₂) :
    o₁ = o₂ ∧ o₁ = get_mapping T R mapper :=
  ⟨(getMappingRun_eq T R mapper h₁).trans (getMappingRun_eq T R mapper h₂).symm,
    getMappingRun_eq T R mapper h₁⟩

/-- Witness for C7: two concrete runs at the same input, compared. -/
theorem get_mapping_deterministic_witness :
    ((Except.ok
        (relabel_nodes
          (edge_subgraph (coupler_edges ⟨[0, 1], [(0, 1)]⟩ ⟨[0, 1], [(0, 1)]⟩ fun n => n))
          (some fun n => n),
         edge_subgraph (coupler_edges ⟨[0, 1], [(0, 1)]⟩ ⟨[0, 1], [(0, 1)]⟩ fun n => n),
         some fun n => n) :
      Except Unit (Graph × Graph × Option (Nat → Nat))) =
      Except.ok
        (relabel_nodes
          (edge_subgraph (coupler_edges ⟨[0, 1], [(0, 1)]⟩ ⟨[0, 1], [(0, 1)]⟩ fun n => n))
          (some fun n => n),
         edge_subgraph (coupler_edges ⟨[0, 1], [(0, 1)]⟩ ⟨[0, 1], [(0, 1)]⟩ fun n => n),
         some fun n => n)) ∧
    (Except.ok
        (relabel_nodes
          (edge_subgraph (coupler_edges ⟨[0, 1], [(0, 1)]⟩ ⟨[0, 1], [(0, 1)]⟩ fun n => n))
          (some fun n => n),
         edge_subgraph (coupler_edges ⟨[0, 1], [(0, 1)]⟩ ⟨[0, 1], [(0, 1)]⟩ fun n => n),
         some fun n => n) :
      Except Unit (Graph × Graph × Option (Nat → Nat))) =
      get_mapping ⟨[0, 1], [(0, 1)]⟩ ⟨[0, 1], [(0, 1)]⟩ (fun _ _ => [fun n => n]) :=
  get_mapping_deterministic ⟨[0, 1], [(0, 1)]⟩ ⟨[0, 1], [(0, 1)]⟩
    (fun _ _ => [fun n => n]) _ _
    (GetMappingRun.found (SelectLoopRel.improve (by decide) (SelectLoopRel.nil _)))
    (GetMappingRun.found (SelectLoopRel.improve (by decide) (SelectLoopRel.nil _)))

/-- C9: for any implementations of the external primitives (`dill` pickling,
`base64`, UTF-8 string codec) satisfying their inverse contracts,
`deserialize` recovers every value that `serialize` encodes: the composition
peels the UTF-8 stage, then the base64 stage, then unpickles. -/
theorem deserialize_serialize_roundtrip {α β γ : Type}
    (pickle_dumps : α → β) (pickle_loads : β → α)
    (b64encode b64decode : β → β) (utf8_decode : β → γ) (utf8_encode : γ → β)
    (hpickle : ∀ x, pickle_loads (pickle_dumps x) = x)
    (hb64 : ∀ b, b64decode (b64encode b) = b)
    (hutf8 : ∀ b, utf8_encode (utf8_decode b) = b)
    (x : α) :
    deserialize pickle_loads b64decode utf8_encode
      (serialize pickle_dumps b64encode utf8_decode x) = x := by
  simp [serialize, deserialize, hutf8, hb64, hpickle]

/-- Witness for C9 with concrete codecs satisfying the inverse contracts. -/
theorem deserialize_serialize_roundtrip_witness :
    deserialize (fun l : List Nat => l.headD 0) List.reverse id
      (serialize (fun n : Nat => [n]) List.reverse id 42) = 42 :=
  deserialize_serialize_roundtrip (fun n : Nat => [n]) (fun l => l.headD 0)
    List.reverse List.reverse id id (fun _ => rfl)
    (fun b => List.reverse_reverse b) (fun _ => rfl) 42

theorem drop_append_length {α : Type} :
    ∀ (l r : List α) (k : Nat), (l ++ r).drop (l.length + k) = r.drop k := by
  intro l
  induction l with
  | nil => intro r k; simp
  | cons a l ih =>
    intro r k
    have hlen : (a :: l).length + k = (l.length + k) + 1 := by
      simp [List.length_cons]
      omega
    rw [List.cons_append, hlen, List.drop_succ_cons]
    exact ih r k

/-- C10: `get_energies` flattens the sampleset's parallel `energy` and
`num_occurrences` records into a list whose length is the sum of all
occurrence counts, and in which, in record order, the `i`-th segment (of
length the `i`-th occurrence count, starting after the previous counts) is
exactly the `i`-th energy value repeated that many times. -/
theorem get_energies_flatten {α : Type}
    (energy : List α) (num_occurrences : List Nat)
    (h : energy.length = num_occurrences.length) :
    (get_energies energy num_occurrences).length = num_occurrences.sum ∧
    (∀ (i : Nat) (hi : i < energy.length),
      ((get_energies energy num_occurrences).drop
          ((num_occurrences.take i).sum)).take
          (num_occurrences.get ⟨i, h ▸ hi⟩) =
        List.replicate (num_occurrences.get ⟨i, h ▸ hi⟩) (energy.get ⟨i, hi⟩)) := by
  induction energy generalizing num_occurrences with
  | nil =>
    cases num_occurrences with
    | nil =>
      exact ⟨rfl, fun i hi => absurd hi (Nat.not_lt_zero i)⟩
    | cons o O => exact absurd h (by simp)
  | cons e E ih =>
    cases num_occurrences with
    | nil => exact absurd h (by simp)
    | cons o O =>
      have hlen : E.length = O.length := by simpa using h
      obtain ⟨ihlen, ihseg⟩ := ih O hlen
      have hGE : get_energies (e :: E) (o :: O) =
          List.replicate o e ++ get_energies E O := rfl
      constructor
      · rw [hGE, List.length_append, List.length_replicate, ihlen, List.sum_cons]
      · intro i hi
        cases i with
        | zero =>
          rw [hGE]
          show ((List.replicate o e ++ get_energies E O).drop 0).take o =
            List.replicate o e
          rw [List.drop_zero]
          calc (List.replicate o e ++ get_energies E O).take o
              = (List.replicate o e ++ get_energies E O).take
                  (List.replicate o e).length := by rw [List.length_replicate]
            _ = List.replicate o e := List.take_left _ _
        | succ i' =>
          have hi' : i' < E.length := Nat.lt_of_succ_lt_succ hi
          rw [hGE]
          show ((List.replicate o e ++ get_energies E O).drop
              (o + (O.take i').sum)).take (O.get ⟨i', hlen ▸ hi'⟩) =
            List.replicate (O.get ⟨i', hlen ▸ hi'⟩) (E.get ⟨i', hi'⟩)
          have h2 : o + (O.take i').sum =
              (List.replicate o e).length + (O.take i').sum := by
            rw [List.length_replicate]
          rw [h2, drop_append_length]
          exact ihseg i' hi'

/-- Witness for C10 at the record of the repository's own unit test
(`energies == [100, 200, 200, 300]`). -/
theorem get_energies_flatten_witness :
    (get_energies [100, 200, 300] [1, 2, 1]).length = [1, 2, 1].sum ∧
    (∀ (i : Nat) (hi : i < ([100, 200, 300] : List Nat).length),
      ((get_energies [100, 200, 300] [1, 2, 1]).drop
          ((([1, 2, 1] : List Nat).take i).sum)).take
          (([1, 2, 1] : List Nat).get ⟨i, (rfl : ([100, 200, 300] : List Nat).length = ([1, 2, 1] : List Nat).length) ▸ hi⟩) =
        List.replicate (([1, 2, 1] : List Nat).get ⟨i, (rfl : ([100, 200, 300] : List Nat).length = ([1, 2, 1] : List Nat).length) ▸ hi⟩)
          (([100, 200, 300] : List Nat).get ⟨i, hi⟩)) :=
  get_energies_flatten [100, 200, 300] [1, 2, 1] rfl
